import Mathlib

set_option linter.unusedVariables false

/-! Shallow embedding of `src/modules/utils/simpleshell/SimpleShell.cpp`
(Smoothie firmware diagnostic console) and proofs about it: session state and
the reset countdown, the path resolver, the `cd`/`pwd` commands, the checksum
command dispatcher, the `cat` streaming loop, the heap walk of the newlib-nano
allocator, and the `set_temp` data-bridge command. -/

namespace SmoothieShell

/-- First character of a C++ `std::string` read via `operator[](0)`; reading
position `size()` of an empty string yields the NUL character. -/
def firstCharD (s : String) : Char := s.data.headD (Char.ofNat 0)

/-- Last character of a C++ `std::string` read via `operator[](length()-1)`. -/
def lastCharD (s : String) : Char := (s.data.getLast?).getD (Char.ofNat 0)

/-- The mutable per-console state of `SimpleShell`: `current_path` and
`reset_delay_secs` (fields of the SimpleShell object). -/
structure Session where
  current_path : String
  reset_delay_secs : Nat
  deriving DecidableEq, Repr

/-- `SimpleShell::on_module_loaded`: `current_path = "/"`, `reset_delay_secs = 0`. -/
def on_module_loaded_session : Session := { current_path := "/", reset_delay_secs := 0 }

/-- `SimpleShell::absolute_from_relative`: a token starting with `/` is returned
unchanged; a token starting with `.` yields the current path; otherwise the
current path is concatenated with the token. -/
def absolute_from_relative (current_path path : String) : String :=
  if firstCharD path = '/' then path
  else if firstCharD path = '.' then current_path
  else current_path ++ path

/-- The folder computed by `SimpleShell::cd_command` before the `opendir` call:
resolve the parameters, then append `/` unless the last character already is `/`. -/
def cd_folder (current_path parameters : String) : String :=
  let folder := absolute_from_relative current_path parameters
  if lastCharD folder ≠ '/' then folder ++ "/" else folder

/-- `SimpleShell::cd_command`. `fs folder` models whether `opendir(folder)`
succeeds. Returns the new session and the printed lines. -/
def cd_command (fs : String → Bool) (parameters : String) (s : Session) :
    Session × List String :=
  if fs (cd_folder s.current_path parameters) then
    ({ s with current_path := cd_folder s.current_path parameters }, [])
  else (s, ["Could not open directory " ++ cd_folder s.current_path parameters ++ " \r\n"])

/-- `SimpleShell::pwd_command`: prints the current path. -/
def pwd_command (s : Session) : Session × List String :=
  (s, [s.current_path ++ "\r\n"])

/-- `SimpleShell::reset_command`: prints the goodbye line and arms the
5-second countdown. -/
def reset_command (s : Session) : Session × List String :=
  ({ s with reset_delay_secs := 5 },
   ["Smoothie out. Peace. Rebooting in 5 seconds...\r\n"])

/-- `SimpleShell::on_second_tick`: if the countdown is positive, pre-decrement
it and fire `system_reset` exactly when it reaches 0. The boolean reports
whether `system_reset(false)` was invoked during this tick. -/
def on_second_tick (s : Session) : Session × Bool :=
  if s.reset_delay_secs > 0 then
    let n := s.reset_delay_secs - 1
    ({ s with reset_delay_secs := n }, n == 0)
  else (s, false)

/-- State after `k` periodic ticks. -/
def tickState : Nat → Session → Session
  | 0, s => s
  | k + 1, s => tickState k (on_second_tick s).1

/-- Whether `system_reset` fires during the `k`-th tick (`k ≥ 1`) after
starting from state `s`. -/
def fireOnTick (s : Session) (k : Nat) : Bool :=
  (on_second_tick (tickState (k - 1) s)).2

/-- Number of `system_reset` firings during the first `k` ticks from state `s`. -/
def fireCount (s : Session) : Nat → Nat
  | 0 => 0
  | k + 1 => fireCount s k + (if fireOnTick s (k + 1) then 1 else 0)

/-- The handlers of the command table (member-function pointers in the source). -/
inductive CmdId where
  | ls
  | cd
  | pwd
  | cat
  | rm
  | reset
  | dfu
  | brk
  | help
  | version
  | mem
  | get
  | set_temp
  | test
  deriving DecidableEq, Repr

/-- Modelled from the spec: `get_checksum` (libs/utils, not under src/) — "a
stable integer fingerprint ('checksum') of the command key", 16 bits wide,
deterministic and content-sensitive; modelled as the Fletcher-16 checksum of
the keyword's bytes. -/
def get_checksum (s : String) : Nat :=
  let p := s.data.foldl
    (fun (q : Nat × Nat) c =>
      ((q.1 + c.toNat) % 255, (q.2 + ((q.1 + c.toNat) % 255)) % 255)) (0, 0)
  p.2 * 256 + p.1

/-- `SimpleShell::ptentry_t`: a table entry pairing a command checksum with a
handler pointer; the sentinel entry carries a null (`none`) handler. -/
structure ptentry where
  command_cs : Nat
  pfunc : Option CmdId
  deriving DecidableEq, Repr

/-- `SimpleShell::commands_table`, ending in the sentinel `{0, NULL}`. -/
def commands_table : List ptentry :=
  [{ command_cs := get_checksum "ls", pfunc := some CmdId.ls },
   { command_cs := get_checksum "cd", pfunc := some CmdId.cd },
   { command_cs := get_checksum "pwd", pfunc := some CmdId.pwd },
   { command_cs := get_checksum "cat", pfunc := some CmdId.cat },
   { command_cs := get_checksum "rm", pfunc := some CmdId.rm },
   { command_cs := get_checksum "reset", pfunc := some CmdId.reset },
   { command_cs := get_checksum "dfu", pfunc := some CmdId.dfu },
   { command_cs := get_checksum "break", pfunc := some CmdId.brk },
   { command_cs := get_checksum "help", pfunc := some CmdId.help },
   { command_cs := get_checksum "version", pfunc := some CmdId.version },
   { command_cs := get_checksum "mem", pfunc := some CmdId.mem },
   { command_cs := get_checksum "get", pfunc := some CmdId.get },
   { command_cs := get_checksum "set_temp", pfunc := some CmdId.set_temp },
   { command_cs := get_checksum "test", pfunc := some CmdId.test },
   { command_cs := 0, pfunc := none }]

/-- The non-sentinel entries of `commands_table`. -/
def commands_table_real : List ptentry :=
  [{ command_cs := get_checksum "ls", pfunc := some CmdId.ls },
   { command_cs := get_checksum "cd", pfunc := some CmdId.cd },
   { command_cs := get_checksum "pwd", pfunc := some CmdId.pwd },
   { command_cs := get_checksum "cat", pfunc := some CmdId.cat },
   { command_cs := get_checksum "rm", pfunc := some CmdId.rm },
   { command_cs := get_checksum "reset", pfunc := some CmdId.reset },
   { command_cs := get_checksum "dfu", pfunc := some CmdId.dfu },
   { command_cs := get_checksum "break", pfunc := some CmdId.brk },
   { command_cs := get_checksum "help", pfunc := some CmdId.help },
   { command_cs := get_checksum "version", pfunc := some CmdId.version },
   { command_cs := get_checksum "mem", pfunc := some CmdId.mem },
   { command_cs := get_checksum "get", pfunc := some CmdId.get },
   { command_cs := get_checksum "set_temp", pfunc := some CmdId.set_temp },
   { command_cs := get_checksum "test", pfunc := some CmdId.test }]

/-- The loop of `SimpleShell::parse_command`: walk the table while
`p->pfunc != NULL`; at the first entry whose checksum equals `cs`, invoke its
handler and stop. -/
def parse_command_scan : List ptentry → Nat → Option CmdId
  | [], _ => none
  | e :: rest, cs =>
    match e.pfunc with
    | none => none
    | some f => if cs = e.command_cs then some f else parse_command_scan rest cs

/-- `SimpleShell::parse_command`: the invoked handler together with the
argument string it receives; `none` models the `return false` path (no handler
invoked). -/
def parse_command (cs : Nat) (args : String) : Option (CmdId × String) :=
  (parse_command_scan commands_table cs).map (fun f => (f, args))

/-- `possible_command.substr(0, possible_command.find_first_of(" \r\n"))`. -/
def first_token (s : String) : String :=
  String.mk (s.data.takeWhile (fun c => !(c == ' ' || c == '\r' || c == '\n')))

/-- Modelled from the spec: `get_arguments` (libs/utils, not under src/) —
"the remainder of the line as its argument string", i.e. everything after the
first space, or the empty string when there is no space. -/
def get_arguments (s : String) : String :=
  match s.data.dropWhile (fun c => !(c == ' ')) with
  | [] => ""
  | _ :: rest => String.mk rest

/-- `SimpleShell::on_console_line_received`: comment lines (leading `;`) are
discarded; otherwise the first token is fingerprinted and dispatched. The
result is the handler invoked with its argument string, or `none` when no
handler ran (in which case nothing is printed). -/
def on_console_line_received (message : String) : Option (CmdId × String) :=
  if firstCharD message = ';' then none
  else parse_command (get_checksum (first_token message)) (get_arguments message)

/-- Modelled from the spec: `shift_parameter` (libs/utils, not under src/) —
"take next whitespace-delimited token", consuming it: the text before the
first space paired with the remainder after that space (or the whole string
paired with `""` when there is no space). -/
def shift_parameter (parameters : String) : String × String :=
  match parameters.data.dropWhile (fun c => !(c == ' ')) with
  | [] => (parameters, "")
  | _ :: r =>
    (String.mk (parameters.data.takeWhile (fun c => !(c == ' '))), String.mk r)

/-- Decimal-digit run accumulator for the `strtol` model. -/
def strtolDigitsAcc : List Char → Nat → Nat
  | c :: rest, acc =>
    if c.isDigit then strtolDigitsAcc rest (acc * 10 + (c.toNat - 48)) else acc
  | [], acc => acc

/-- Value of a leading decimal-digit run; `none` when the first character is
not a digit (the C end pointer would not advance past it). -/
def strtolDigitRun : List Char → Option Nat
  | c :: rest => if c.isDigit then some (strtolDigitsAcc (c :: rest) 0) else none
  | [] => none

/-- Modelled from the C library contract of `strtol` with base 10 (an external
collaborator, not under src/): an optional sign followed by decimal digits;
`none` when no conversion is performed (end pointer equal to the start). -/
def strtolNum (s : List Char) : Option Int :=
  match s with
  | '-' :: rest => (strtolDigitRun rest).map (fun v => -(v : Int))
  | '+' :: rest => (strtolDigitRun rest).map (fun v => (v : Int))
  | _ => (strtolDigitRun s).map (fun v => (v : Int))

/-- The limit parsing of `SimpleShell::cat_command`: `-1` when the limit token
is absent; otherwise the `strtol` value, reverted to `-1` when the end pointer
did not advance (`e <= limit_paramater.c_str()`). -/
def cat_limit (tok : String) : Int :=
  if tok = "" then -1
  else
    match strtolNum tok.data with
    | none => -1
    | some v => v

/-- The streaming loop of `SimpleShell::cat_command` over the file's bytes
(`fgetc` results). Each byte is appended to the line buffer. The flush
condition is `char(c) == '\n' || ++linecnt > 80` with C short-circuiting:
on a newline `linecnt` is not incremented, otherwise it is pre-incremented;
on a flush the buffer is written to the stream and cleared, `newlines` is
incremented, and `linecnt` is reset to 0 only when it exceeded 80. After every
byte, `newlines == limit` breaks the loop. At EOF the loop ends and the file
is closed; the pending buffer is not flushed. Returns the list of buffers
passed to `stream->puts`. -/
def catLoop (limit : Int) : List Nat → List Nat → Nat → Nat → List (List Nat)
  | [], _buffer, _newlines, _linecnt => []
  | c :: rest, buffer, newlines, linecnt =>
    if c = 10 then
      if ((newlines + 1 : Nat) : Int) = limit then [buffer ++ [c]]
      else (buffer ++ [c]) ::
        catLoop limit rest [] (newlines + 1) (if linecnt > 80 then 0 else linecnt)
    else
      if linecnt + 1 > 80 then
        if ((newlines + 1 : Nat) : Int) = limit then [buffer ++ [c]]
        else (buffer ++ [c]) :: catLoop limit rest [] (newlines + 1) 0
      else
        if ((newlines : Nat) : Int) = limit then []
        else catLoop limit rest (buffer ++ [c]) newlines (linecnt + 1)

/-- The flushes `cat` produces on a file's bytes, from the initial state
(empty buffer, `newlines = 0`, `linecnt = 0`). -/
def cat_flushes (file : List Nat) (limit : Int) : List (List Nat) :=
  catLoop limit file [] 0 0

/-- `SimpleShell::cat_command`: resolve the filename, parse the limit token,
then stream the opened file's bytes through the loop; a missing file prints
"File not found". `fs` models `fopen`+`fgetc`. Returns the flushes and the
printed error lines. -/
def cat_command (fs : String → Option (List Nat)) (parameters : String)
    (s : Session) : List (List Nat) × List String :=
  match fs (absolute_from_relative s.current_path (shift_parameter parameters).1) with
  | none =>
    ([], ["File not found: " ++
      absolute_from_relative s.current_path (shift_parameter parameters).1 ++ "\r\n"])
  | some bytes =>
    (cat_flushes bytes (cat_limit (shift_parameter (shift_parameter parameters).2).1), [])

/-- The 81-byte chunks of a byte list, a final partial chunk dropped: the
flush pattern of the `cat` loop on newline-free content. -/
def chunksOf81 (l : List Nat) : List (List Nat) :=
  if h : 81 ≤ l.length then l.take 81 :: chunksOf81 (l.drop 81) else []
termination_by l.length
decreasing_by
  simp only [List.length_drop]
  omega

/-- A file given as newline-terminated lines: each line's bytes followed by
the newline byte 10. -/
def linesToBytes : List (List Nat) → List Nat
  | [] => []
  | l :: rest => l ++ 10 :: linesToBytes rest

/-- Value of a run of decimal digits, most significant first. -/
def digitsVal (l : List Char) : Nat :=
  l.foldl (fun acc c => acc * 10 + (c.toNat - 48)) 0

/-- Fractional digit run of a `strtod` input: the digits right after the dot
that follows the integer-part digits. -/
def fracDigits (s : List Char) : List Char :=
  match s.dropWhile Char.isDigit with
  | '.' :: r => r.takeWhile Char.isDigit
  | _ => []

/-- Magnitude part of the `strtod` model: integer digits with an optional
fractional part, as a rational; `none` when there is no digit at all (no
conversion is performed). -/
def strtodMag (s : List Char) : Option ℚ :=
  if (s.takeWhile Char.isDigit).isEmpty && (fracDigits s).isEmpty then none
  else
    some ((digitsVal (s.takeWhile Char.isDigit) : ℚ) +
      (digitsVal (fracDigits s) : ℚ) / (10 : ℚ) ^ (fracDigits s).length)

/-- Modelled from the C library contract of `strtod` (an external
collaborator, not under src/): an optional sign followed by decimal digits
with an optional fractional part; `none` when no conversion can be
performed. -/
def strtodNum (s : List Char) : Option ℚ :=
  match s with
  | '-' :: rest => (strtodMag rest).map (fun v => -v)
  | '+' :: rest => strtodMag rest
  | _ => strtodMag s

/-- `strtod(s, NULL)`: 0.0 when no conversion can be performed. -/
def strtod (s : String) : ℚ := (strtodNum s.data).getD 0

/-- The reply printed by `set_temp_command`. -/
inductive SetTempReply where
  | success (type : String) (t : ℚ)
  | unknownDevice (type : String)
  deriving DecidableEq, Repr

/-- The value expression of `set_temp_command`:
`double t = temp.empty() ? 0.0 : strtod(temp.c_str(), NULL);` where `temp` is
the second shifted token. -/
def set_temp_value (parameters : String) : ℚ :=
  if (shift_parameter (shift_parameter parameters).2).1 = "" then 0
  else strtod (shift_parameter (shift_parameter parameters).2).1

/-- `SimpleShell::set_temp_command`: shift the device token and the value
token, parse the value with `strtod` (defaulting to 0.0 when the token is
empty), then call `public_data->set_value(temperature_control_checksum,
get_checksum(type), &t)`; `known` models which device checksums the
data-exchange interface recognises (the returned `ok`). Returns the
(device-checksum, value) write request and the printed reply. -/
def set_temp_command (known : Nat → Bool) (parameters : String) :
    (Nat × ℚ) × SetTempReply :=
  if known (get_checksum (shift_parameter parameters).1) then
    ((get_checksum (shift_parameter parameters).1, set_temp_value parameters),
     SetTempReply.success (shift_parameter parameters).1 (set_temp_value parameters))
  else
    ((get_checksum (shift_parameter parameters).1, set_temp_value parameters),
     SetTempReply.unknownDevice (shift_parameter parameters).1)

/-- One heap chunk as the walk sees it: the raw 32-bit size header (which
includes newlib-nano's 8-byte bookkeeping overhead) and whether the chunk is
on the allocator's free list. -/
structure HeapChunk where
  rawSize : Nat
  isFree : Bool
  deriving DecidableEq, Repr

/-- The loop of `heapWalk` (Adam Green's heap walk in SimpleShell.cpp):
`mem a` is the 32-bit word read at address `a` (`*(uint32_t *)a`); addresses
and sizes are `uint32_t`, so arithmetic is mod `2 ^ 32`, and
`(chunkCurr + 4 + 7) & ~7` is rounding the 32-bit value down to a multiple
of 8. The loop runs `while (chunkCurr < heapEnd)`; `fuel` bounds the number
of iterations modelled. Returns the per-chunk records (8-byte-aligned data
address, size less the 8-byte overhead, free flag — the verbose output) and
the accumulated `usedSize` and `freeSize` totals. -/
def heapWalk_loop (mem : Nat → Nat) (heapEnd : Nat) :
    Nat → Nat → Nat → Nat → Nat → List (Nat × Nat × Bool) × Nat × Nat
  | 0, _chunkCurr, _freeCurr, usedSize, freeSize => ([], usedSize, freeSize)
  | fuel + 1, chunkCurr, freeCurr, usedSize, freeSize =>
    if chunkCurr < heapEnd then
      let chunkSize := mem chunkCurr % 2 ^ 32
      let chunkNext := (chunkCurr + chunkSize) % 2 ^ 32
      let isChunkFree := chunkCurr == freeCurr
      let freeCurr2 := if isChunkFree then mem (freeCurr + 4) % 2 ^ 32 else freeCurr
      let dataAddr := ((chunkCurr + 4 + 7) % 2 ^ 32) / 8 * 8
      let chunkSize2 := (chunkSize + (2 ^ 32 - 8)) % 2 ^ 32
      let usedSize2 := if isChunkFree then usedSize
        else (usedSize + chunkSize2) % 2 ^ 32
      let freeSize2 := if isChunkFree then (freeSize + chunkSize2) % 2 ^ 32
        else freeSize
      let r := heapWalk_loop mem heapEnd fuel chunkNext freeCurr2 usedSize2 freeSize2
      ((dataAddr, chunkSize2, isChunkFree) :: r.1, r.2)
    else ([], usedSize, freeSize)

/-- `heapWalk(stream, verbose)`: `heapStart` is `&__end__`, `freeListHead` is
`__malloc_free_list`, `heapEnd` is `_sbrk(0)`. Returns the top-line
"Used Heap Size" value — `heapEnd - chunkCurr` printed before the walk, as
32-bit unsigned subtraction — together with the walk's records and the final
"Allocated/Free" totals. -/
def heapWalk (mem : Nat → Nat) (heapStart freeListHead heapEnd fuel : Nat) :
    Nat × List (Nat × Nat × Bool) × Nat × Nat :=
  ((heapEnd + 2 ^ 32 - heapStart) % 2 ^ 32,
   heapWalk_loop mem heapEnd fuel heapStart freeListHead 0 0)

/-- Sum of the raw chunk sizes. -/
def sumRaw (chunks : List HeapChunk) : Nat := (chunks.map HeapChunk.rawSize).sum

/-- Address of the first free chunk at or after `start`, or 0 (the null
next-free pointer terminating newlib-nano's address-sorted free list) when no
free chunk remains. -/
def firstFreeAddr : Nat → List HeapChunk → Nat
  | _, [] => 0
  | start, c :: rest =>
    if c.isFree then start else firstFreeAddr (start + c.rawSize) rest

/-- The heap image agrees with the chunk description laid out contiguously
from `start`: each chunk's 32-bit header holds its raw size, and each free
chunk's second word holds the address of the next free chunk (0 when none) —
the free list sorted ascending by address. -/
def memConsistent (mem : Nat → Nat) : Nat → List HeapChunk → Prop
  | _, [] => True
  | start, c :: rest =>
    mem start = c.rawSize ∧
    (c.isFree = true → mem (start + 4) = firstFreeAddr (start + c.rawSize) rest) ∧
    memConsistent mem (start + c.rawSize) rest

/-- The records the walk should report for chunks laid out from `start`:
8-byte-aligned data address, raw size less the 8-byte overhead, free flag. -/
def expectedRecords : Nat → List HeapChunk → List (Nat × Nat × Bool)
  | _, [] => []
  | start, c :: rest =>
    ((start + 11) / 8 * 8, c.rawSize - 8, c.isFree) ::
      expectedRecords (start + c.rawSize) rest

/-- Total adjusted (raw minus 8) size of the used chunks. -/
def sumAdjUsed : List HeapChunk → Nat
  | [] => 0
  | c :: rest => (if c.isFree then 0 else c.rawSize - 8) + sumAdjUsed rest

/-- Total adjusted (raw minus 8) size of the free chunks. -/
def sumAdjFree : List HeapChunk → Nat
  | [] => 0
  | c :: rest => (if c.isFree then c.rawSize - 8 else 0) + sumAdjFree rest

/-- Total adjusted (raw minus 8) size of all chunks. -/
def sumAdj (chunks : List HeapChunk) : Nat :=
  (chunks.map (fun c => c.rawSize - 8)).sum

/-- A concrete heap image with three chunks: a used chunk of raw size 16 at
address 8, a free chunk of raw size 16 at 24 whose next-free word (at 28) is
0, and a used chunk of raw size 24 at 40; the heap ends at 64. -/
def wmem : Nat → Nat
  | 8 => 16
  | 24 => 16
  | 28 => 0
  | 40 => 24
  | _ => 0

/-- The chunk description of the `wmem` heap image. -/
def wchunks : List HeapChunk :=
  [{ rawSize := 16, isFree := false }, { rawSize := 16, isFree := true },
   { rawSize := 24, isFree := false }]

lemma on_second_tick_fst (s : Session) :
    (on_second_tick s).1 = { s with reset_delay_secs := s.reset_delay_secs - 1 } := by
  cases s with
  | mk cp d =>
    cases d with
    | zero => rfl
    | succ m => simp [on_second_tick]

lemma on_second_tick_snd (s : Session) :
    (on_second_tick s).2 = true ↔ s.reset_delay_secs = 1 := by
  unfold on_second_tick
  split
  · next h => simp; omega
  · next h => simp; omega

lemma tickState_delay (k : Nat) (s : Session) :
    (tickState k s).reset_delay_secs = s.reset_delay_secs - k := by
  induction k generalizing s with
  | zero => simp [tickState]
  | succ n ih =>
    rw [tickState, ih, on_second_tick_fst]
    simp
    omega

lemma fireOnTick_iff (s : Session) (k : Nat) :
    fireOnTick s k = true ↔ s.reset_delay_secs - (k - 1) = 1 := by
  rw [fireOnTick, on_second_tick_snd, tickState_delay]

lemma fireOnTick_armed5 (s : Session) (hs : s.reset_delay_secs = 5) (k : Nat)
    (hk : 1 ≤ k) : fireOnTick s k = true ↔ k = 5 := by
  rw [fireOnTick_iff, hs]
  omega

lemma fireCount_armed5 (s : Session) (hs : s.reset_delay_secs = 5) (k : Nat) :
    fireCount s k = if 5 ≤ k then 1 else 0 := by
  induction k with
  | zero => simp [fireCount]
  | succ n ih =>
    rw [fireCount, ih]
    by_cases h5 : n + 1 = 5
    · have hf : fireOnTick s (n + 1) = true :=
        (fireOnTick_armed5 s hs (n + 1) (by omega)).2 h5
      rw [hf]
      have hn : n = 4 := by omega
      subst hn
      rfl
    · have hf : fireOnTick s (n + 1) = false := by
        cases hb : fireOnTick s (n + 1) with
        | false => rfl
        | true => exact absurd ((fireOnTick_armed5 s hs (n + 1) (by omega)).1 hb) h5
      rw [hf]
      simp only [Bool.false_eq_true, if_false, Nat.add_zero]
      by_cases h6 : 5 ≤ n
      · rw [if_pos h6, if_pos (show 5 ≤ n + 1 by omega)]
      · rw [if_neg h6, if_neg (show ¬ 5 ≤ n + 1 by omega)]

/-- C4: after `reset_command` is processed (reply printed immediately, 5-second
countdown armed), the device-reset action fires exactly on the 5th subsequent
periodic tick — never earlier, never later, and exactly once over any horizon;
while the countdown is idle (0), ticks leave the session unchanged and fire
nothing. -/
theorem reset_fires_exactly_on_fifth_tick (s : Session) (k : Nat) (hk : 1 ≤ k) :
    (fireOnTick (reset_command s).1 k = true ↔ k = 5) ∧
    (∀ m : Nat, fireCount (reset_command s).1 m = if 5 ≤ m then 1 else 0) ∧
    (∀ s' : Session, s'.reset_delay_secs = 0 → on_second_tick s' = (s', false)) := by
  have harm : (reset_command s).1.reset_delay_secs = 5 := rfl
  refine ⟨fireOnTick_armed5 _ harm k hk, fun m => fireCount_armed5 _ harm m, ?_⟩
  intro s' h0
  unfold on_second_tick
  rw [h0]
  simp

theorem reset_fires_exactly_on_fifth_tick_witness :
    (fireOnTick (reset_command on_module_loaded_session).1 5 = true ↔ 5 = 5) ∧
    (∀ m : Nat, fireCount (reset_command on_module_loaded_session).1 m =
      if 5 ≤ m then 1 else 0) ∧
    (∀ s' : Session, s'.reset_delay_secs = 0 → on_second_tick s' = (s', false)) :=
  reset_fires_exactly_on_fifth_tick on_module_loaded_session 5 (by decide)

/-- C10: `reset_command` overwrites the countdown with 5 in every session
state, including one already armed with any `n > 0`; re-issuing `reset` while
armed restarts the full 5-tick countdown (the reset then fires exactly on the
5th tick after the re-issue). -/
theorem reset_command_rearms_to_five (s : Session) :
    (reset_command s).1.reset_delay_secs = 5 ∧
    (∀ k : Nat, 1 ≤ k → (fireOnTick (reset_command s).1 k = true ↔ k = 5)) :=
  ⟨rfl, fun k hk => fireOnTick_armed5 _ rfl k hk⟩

theorem reset_command_rearms_to_five_witness :
    (reset_command { current_path := "/", reset_delay_secs := 2 }).1.reset_delay_secs = 5 ∧
    (fireOnTick (reset_command { current_path := "/", reset_delay_secs := 2 }).1 5 = true ↔
      5 = 5) :=
  ⟨(reset_command_rearms_to_five _).1,
   (reset_command_rearms_to_five
     { current_path := "/", reset_delay_secs := 2 }).2 5 (by decide)⟩

/-- C9: every path token whose first character is `.` — including `..`,
`.hidden` and `./sub` — makes `absolute_from_relative` return the session's
current path unchanged, discarding the rest of the token. -/
theorem absolute_from_relative_dot (current_path path : String)
    (h : firstCharD path = '.') :
    absolute_from_relative current_path path = current_path := by
  unfold absolute_from_relative
  rw [h]
  simp

theorem absolute_from_relative_dot_witness :
    absolute_from_relative "/x/y/" ".." = "/x/y/" ∧
    absolute_from_relative "/x/y/" ".hidden" = "/x/y/" ∧
    absolute_from_relative "/x/y/" "./sub" = "/x/y/" :=
  ⟨absolute_from_relative_dot "/x/y/" ".." (by decide),
   absolute_from_relative_dot "/x/y/" ".hidden" (by decide),
   absolute_from_relative_dot "/x/y/" "./sub" (by decide)⟩

/-- C3: `cd_command` is atomic on session state: when `opendir` of the
resolved folder fails the session is returned untouched together with the
error line, and when it succeeds the current path is replaced by the resolved
folder with a trailing `/`; in particular, after `cd /a` (succeeds) and
`cd /nonexistent` (fails), `pwd` reports `/a/`. -/
theorem cd_command_atomic (fs : String → Bool) (params : String) (s : Session) :
    (fs (cd_folder s.current_path params) = false →
      cd_command fs params s =
        (s, ["Could not open directory " ++ cd_folder s.current_path params ++ " \r\n"])) ∧
    (fs (cd_folder s.current_path params) = true →
      cd_command fs params s =
        ({ s with current_path := cd_folder s.current_path params }, [])) ∧
    (∀ g : String → Bool, g "/a/" = true → g "/nonexistent/" = false →
      (pwd_command
        (cd_command g "/nonexistent" (cd_command g "/a" on_module_loaded_session).1).1).2 =
        ["/a/\r\n"]) := by
  refine ⟨fun hf => ?_, fun ht => ?_, fun g hga hgn => ?_⟩
  · unfold cd_command
    rw [hf]
    simp
  · unfold cd_command
    rw [ht]
    simp
  · have h1 : cd_folder on_module_loaded_session.current_path "/a" = "/a/" := by decide
    have h2 : (cd_command g "/a" on_module_loaded_session).1 =
        { current_path := "/a/", reset_delay_secs := 0 } := by
      unfold cd_command
      rw [h1, hga]
      rfl
    rw [h2]
    have h3 : cd_folder "/a/" "/nonexistent" = "/nonexistent/" := by decide
    unfold cd_command
    rw [h3, hgn]
    rfl

theorem cd_command_atomic_witness :
    (pwd_command
      (cd_command (fun p => p == "/a/") "/nonexistent"
        (cd_command (fun p => p == "/a/") "/a" on_module_loaded_session).1).1).2 =
      ["/a/\r\n"] :=
  (cd_command_atomic (fun p => p == "/a/") "" on_module_loaded_session).2.2
    (fun p => p == "/a/") (by decide) (by decide)

lemma parse_command_scan_of_mem (l : List ptentry) (e : ptentry) (f : CmdId)
    (hnd : (l.map ptentry.command_cs).Nodup)
    (hsome : ∀ x ∈ l, x.pfunc.isSome = true)
    (he : e ∈ l) (hf : e.pfunc = some f) :
    parse_command_scan (l ++ [({ command_cs := 0, pfunc := none } : ptentry)])
      e.command_cs = some f := by
  induction l with
  | nil => cases he
  | cons a rest ih =>
    rcases List.mem_cons.mp he with rfl | hmem
    · simp [parse_command_scan, hf]
    · obtain ⟨g, hg⟩ :=
        Option.isSome_iff_exists.mp (hsome a (List.mem_cons_self a rest))
      have hane : e.command_cs ≠ a.command_cs := by
        intro hh
        have hmm : e.command_cs ∈ rest.map ptentry.command_cs :=
          List.mem_map_of_mem ptentry.command_cs hmem
        rw [List.map_cons, List.nodup_cons] at hnd
        exact hnd.1 (hh ▸ hmm)
      have hstep :
          parse_command_scan ((a :: rest) ++
            [({ command_cs := 0, pfunc := none } : ptentry)]) e.command_cs =
          parse_command_scan (rest ++
            [({ command_cs := 0, pfunc := none } : ptentry)]) e.command_cs := by
        simp [parse_command_scan, hg, hane]
      rw [hstep]
      rw [List.map_cons, List.nodup_cons] at hnd
      exact ih hnd.2 (fun x hx => hsome x (List.mem_cons_of_mem a hx)) hmem

lemma parse_command_scan_of_no_match (l : List ptentry) (cs : Nat)
    (h : ∀ x ∈ l, x.pfunc.isSome = true → cs ≠ x.command_cs) :
    parse_command_scan (l ++ [({ command_cs := 0, pfunc := none } : ptentry)]) cs =
      none := by
  induction l with
  | nil => rfl
  | cons a rest ih =>
    cases hg : a.pfunc with
    | none => simp [parse_command_scan, hg]
    | some g =>
      have hne : cs ≠ a.command_cs :=
        h a (List.mem_cons_self a rest) (by rw [hg]; rfl)
      have hstep :
          parse_command_scan ((a :: rest) ++
            [({ command_cs := 0, pfunc := none } : ptentry)]) cs =
          parse_command_scan (rest ++
            [({ command_cs := 0, pfunc := none } : ptentry)]) cs := by
        simp [parse_command_scan, hg, hne]
      rw [hstep]
      exact ih (fun x hx hs => h x (List.mem_cons_of_mem a hx) hs)

lemma commands_table_eq_append :
    commands_table =
      commands_table_real ++ [({ command_cs := 0, pfunc := none } : ptentry)] := rfl

lemma commands_table_real_nodup :
    (commands_table_real.map ptentry.command_cs).Nodup := by decide

lemma commands_table_real_some :
    ∀ x ∈ commands_table_real, x.pfunc.isSome = true := by decide

/-- C2: for every input line not beginning with the comment marker `;`, if the
fingerprint of its first whitespace-delimited token equals the fingerprint of
some command-table entry, exactly that entry's handler is invoked, exactly
once, with the remainder of the line as its argument string; if the
fingerprint matches no entry, no handler is invoked and nothing is printed
(the linear scan stops at the first match or at the sentinel entry with
fingerprint 0 and null handler). -/
theorem dispatch_exact (msg : String) (hc : firstCharD msg ≠ ';') :
    (∀ e ∈ commands_table, ∀ f : CmdId, e.pfunc = some f →
      get_checksum (first_token msg) = e.command_cs →
      on_console_line_received msg = some (f, get_arguments msg)) ∧
    ((∀ e ∈ commands_table, e.pfunc.isSome = true →
        get_checksum (first_token msg) ≠ e.command_cs) →
      on_console_line_received msg = none) := by
  constructor
  · intro e he f hf hcs
    have he' : e ∈ commands_table_real := by
      rw [commands_table_eq_append] at he
      rcases List.mem_append.mp he with h | h
      · exact h
      · exfalso
        have : e = ({ command_cs := 0, pfunc := none } : ptentry) :=
          List.mem_singleton.mp h
        rw [this] at hf
        exact Option.noConfusion hf
    unfold on_console_line_received
    rw [if_neg hc]
    unfold parse_command
    rw [hcs, commands_table_eq_append,
      parse_command_scan_of_mem commands_table_real e f
        commands_table_real_nodup commands_table_real_some he' hf]
    rfl
  · intro h
    unfold on_console_line_received
    rw [if_neg hc]
    unfold parse_command
    rw [commands_table_eq_append,
      parse_command_scan_of_no_match commands_table_real
        (get_checksum (first_token msg))
        (fun x hx hs => h x (commands_table_eq_append ▸ List.mem_append_left _ hx) hs)]
    rfl

theorem dispatch_exact_witness :
    on_console_line_received "version 1" = some (CmdId.version, "1") ∧
    on_console_line_received "zzz 1" = none :=
  ⟨(dispatch_exact "version 1" (by decide)).1
      { command_cs := get_checksum "version", pfunc := some CmdId.version }
      (by decide) CmdId.version rfl (by decide),
   (dispatch_exact "zzz 1" (by decide)).2 (by decide)⟩

lemma chunksOf81_small (l : List Nat) (h : l.length ≤ 80) : chunksOf81 l = [] := by
  rw [chunksOf81]
  rw [dif_neg (by omega)]

lemma chunksOf81_big (l : List Nat) (h : 81 ≤ l.length) :
    chunksOf81 l = l.take 81 :: chunksOf81 (l.drop 81) := by
  rw [chunksOf81]
  rw [dif_pos h]

lemma catLoop_no_newline (limit : Int) (hlim : limit < 0) (bs : List Nat)
    (hnlbs : ∀ b ∈ bs, b ≠ 10) :
    ∀ (buf : List Nat) (nl : Nat), buf.length ≤ 80 →
      catLoop limit bs buf nl buf.length = chunksOf81 (buf ++ bs) := by
  induction bs with
  | nil =>
    intro buf nl hb
    rw [chunksOf81_small (buf ++ []) (by simpa using hb)]
    rfl
  | cons c rest ih =>
    intro buf nl hb
    have hc : ¬ c = 10 := hnlbs c (List.mem_cons_self c rest)
    have hrest : ∀ b ∈ rest, b ≠ 10 :=
      fun b hbm => hnlbs b (List.mem_cons_of_mem c hbm)
    by_cases h80 : buf.length + 1 > 80
    · have hb80 : buf.length = 80 := by omega
      simp only [catLoop]
      rw [if_neg hc, if_pos h80,
        if_neg (show ¬ ((nl + 1 : Nat) : Int) = limit by omega)]
      have hz : (0 : Nat) = List.length ([] : List Nat) := rfl
      rw [hz, ih hrest [] (nl + 1) (by simp)]
      rw [List.nil_append]
      rw [chunksOf81_big (buf ++ c :: rest) (by simp [List.length_append]; omega)]
      have hcons : buf ++ c :: rest = (buf ++ [c]) ++ rest := by simp
      rw [hcons]
      rw [List.take_left' (by simp [List.length_append]; omega),
          List.drop_left' (by simp [List.length_append]; omega)]
    · simp only [catLoop]
      rw [if_neg hc, if_neg h80,
        if_neg (show ¬ ((nl : Nat) : Int) = limit by omega)]
      have hlen : buf.length + 1 = (buf ++ [c]).length := by simp
      rw [hlen, ih hrest (buf ++ [c]) nl (by simp; omega)]
      have hcons : (buf ++ [c]) ++ rest = buf ++ c :: rest := by simp
      rw [hcons]

lemma catLoop_nil (limit : Int) (buffer : List Nat) (newlines linecnt : Nat) :
    catLoop limit [] buffer newlines linecnt = [] := rfl

lemma catLoop_cons (limit : Int) (c : Nat) (rest buffer : List Nat)
    (newlines linecnt : Nat) :
    catLoop limit (c :: rest) buffer newlines linecnt =
      if c = 10 then
        if ((newlines + 1 : Nat) : Int) = limit then [buffer ++ [c]]
        else (buffer ++ [c]) ::
          catLoop limit rest [] (newlines + 1)
            (if linecnt > 80 then 0 else linecnt)
      else
        if linecnt + 1 > 80 then
          if ((newlines + 1 : Nat) : Int) = limit then [buffer ++ [c]]
          else (buffer ++ [c]) :: catLoop limit rest [] (newlines + 1) 0
        else
          if ((newlines : Nat) : Int) = limit then []
          else catLoop limit rest (buffer ++ [c]) newlines (linecnt + 1) := rfl

lemma catLoop_line (limit : Int) (line : List Nat) (hnl : ∀ b ∈ line, b ≠ 10) :
    ∀ (rest buf : List Nat) (nl l : Nat), l + line.length ≤ 80 →
      ((nl : Nat) : Int) ≠ limit →
      catLoop limit (line ++ 10 :: rest) buf nl l =
        (buf ++ line ++ [10]) ::
          (if ((nl + 1 : Nat) : Int) = limit then []
           else catLoop limit rest [] (nl + 1) (l + line.length)) := by
  induction line with
  | nil =>
    intro rest buf nl l hl hne
    simp only [List.length_nil, Nat.add_zero] at hl ⊢
    simp only [List.nil_append]
    rw [catLoop_cons, if_pos rfl, if_neg (show ¬ l > 80 by omega)]
    by_cases hL : ((nl + 1 : Nat) : Int) = limit
    · rw [if_pos hL, if_pos hL]
      simp
    · rw [if_neg hL, if_neg hL]
      simp
  | cons c cs ih =>
    intro rest buf nl l hl hne
    have hc : ¬ c = 10 := hnl c (List.mem_cons_self c cs)
    have hcs : ∀ b ∈ cs, b ≠ 10 := fun b hb => hnl b (List.mem_cons_of_mem c hb)
    simp only [List.length_cons] at hl
    rw [show (c :: cs) ++ 10 :: rest = c :: (cs ++ 10 :: rest) from rfl]
    rw [catLoop_cons, if_neg hc, if_neg (show ¬ l + 1 > 80 by omega), if_neg hne]
    rw [ih hcs rest (buf ++ [c]) nl (l + 1) (by omega) hne]
    congr 1
    · simp
    · have h2 : l + 1 + cs.length = l + (c :: cs).length := by
        simp only [List.length_cons]
        omega
      rw [h2]

lemma catLoop_flatten_neg (limit : Int) (hlim : limit < 0) :
    ∀ (bs : List Nat), bs.getLast? = some 10 →
    ∀ (buf : List Nat) (nl l : Nat),
      (catLoop limit bs buf nl l).flatten = buf ++ bs := by
  intro bs
  induction bs with
  | nil => intro h; cases h
  | cons c rest ih =>
    intro hlast buf nl l
    by_cases hr : rest = []
    · subst hr
      have hc : c = 10 := by simpa using hlast
      subst hc
      rw [catLoop_cons, if_pos rfl,
        if_neg (show ¬ ((nl + 1 : Nat) : Int) = limit by omega)]
      simp [catLoop_nil]
    · have hlast' : rest.getLast? = some 10 := by
        obtain ⟨d, ds, rfl⟩ := List.exists_cons_of_ne_nil hr
        simpa [List.getLast?_cons_cons] using hlast
      by_cases hc : c = 10
      · subst hc
        rw [catLoop_cons, if_pos rfl,
          if_neg (show ¬ ((nl + 1 : Nat) : Int) = limit by omega)]
        rw [List.flatten_cons, ih hlast' [] (nl + 1) (if l > 80 then 0 else l)]
        simp
      · rw [catLoop_cons, if_neg hc]
        by_cases h80 : l + 1 > 80
        · rw [if_pos h80,
            if_neg (show ¬ ((nl + 1 : Nat) : Int) = limit by omega)]
          rw [List.flatten_cons, ih hlast' [] (nl + 1) 0]
          simp
        · rw [if_neg h80,
            if_neg (show ¬ ((nl : Nat) : Int) = limit by omega)]
          rw [ih hlast' (buf ++ [c]) nl (l + 1)]
          simp

set_option maxRecDepth 100000 in
/-- C5 counterexample: on the concrete 200-byte newline-free file (bytes all
97) with no limit argument, the `cat` flushes are two chunks of 81 bytes —
exceeding the claimed 80-byte bound — and their total is 162 bytes, so the
trailing 38 bytes are never flushed (no trailing flush exists). -/
theorem cat_long_line_claim_false :
    ((cat_flushes (List.replicate 200 97) (cat_limit "")).map List.length =
      [81, 81]) ∧
    (¬ ∀ b ∈ cat_flushes (List.replicate 200 97) (cat_limit ""),
        b.length ≤ 80) ∧
    (cat_flushes (List.replicate 200 97) (cat_limit "")).flatten.length ≠ 200 := by
  decide

/-- C5 amended: for every single-line 200-byte file with no newline, `cat`
without a limit flushes the content in chunks of exactly 81 bytes (the flush
fires when the pre-incremented line counter exceeds 80, i.e. with 81 buffered
bytes), and there is no trailing flush: only 162 of the 200 bytes reach the
stream, the final 38 bytes being discarded at EOF. -/
theorem cat_long_line_81_byte_chunks (bs : List Nat) (hnl : ∀ b ∈ bs, b ≠ 10)
    (hlen : bs.length = 200) :
    cat_flushes bs (cat_limit "") = [bs.take 81, (bs.drop 81).take 81] ∧
    (cat_flushes bs (cat_limit "")).map List.length = [81, 81] ∧
    (cat_flushes bs (cat_limit "")).flatten.length = 162 := by
  have h0 : cat_flushes bs (cat_limit "") = chunksOf81 bs := by
    have h := catLoop_no_newline (-1) (by decide) bs hnl [] 0 (by simp)
    simpa [cat_flushes, cat_limit] using h
  have hb1 : chunksOf81 bs = bs.take 81 :: chunksOf81 (bs.drop 81) :=
    chunksOf81_big bs (by omega)
  have hb2 : chunksOf81 (bs.drop 81) =
      (bs.drop 81).take 81 :: chunksOf81 ((bs.drop 81).drop 81) :=
    chunksOf81_big (bs.drop 81) (by simp [List.length_drop]; omega)
  have hb3 : chunksOf81 ((bs.drop 81).drop 81) = [] :=
    chunksOf81_small ((bs.drop 81).drop 81) (by simp [List.length_drop]; omega)
  rw [h0, hb1, hb2, hb3]
  refine ⟨rfl, ?_, ?_⟩
  · simp [List.length_take, List.length_drop]
    omega
  · simp [List.length_take, List.length_drop]
    omega

theorem cat_long_line_81_byte_chunks_witness :
    cat_flushes (List.replicate 200 97) (cat_limit "") =
      [(List.replicate 200 97).take 81,
       ((List.replicate 200 97).drop 81).take 81] ∧
    (cat_flushes (List.replicate 200 97) (cat_limit "")).map List.length =
      [81, 81] ∧
    (cat_flushes (List.replicate 200 97) (cat_limit "")).flatten.length = 162 :=
  cat_long_line_81_byte_chunks (List.replicate 200 97)
    (fun b hb => by rw [List.eq_of_mem_replicate hb]; decide)
    (by rw [List.length_replicate])

set_option maxRecDepth 100000 in
/-- C6 counterexample: for the concrete file of 10 newline-terminated lines of
thirty 97-bytes each and `limit = 3`, `cat` emits lines 1 and 2 and then an
overflow flush of only the first 21 bytes of line 3 (the line counter is not
reset by newline flushes and overflow flushes also count toward the limit) —
not the first 3 lines. -/
theorem cat_three_lines_claim_false :
    cat_flushes (linesToBytes (List.replicate 10 (List.replicate 30 97)))
        (cat_limit "3") =
      [List.replicate 30 97 ++ [10], List.replicate 30 97 ++ [10],
       List.replicate 21 97] ∧
    List.replicate 21 97 ≠ List.replicate 30 97 ++ [10] := by
  decide

/-- C6 amended: for a file of 10 newline-terminated lines whose first three
lines hold at most 80 non-newline bytes in total, `cat` with `limit = 3`
emits exactly the first 3 lines, each terminated by its newline, and nothing
more; streaming stops after exactly `lineLimit` flushes (overflow flushes
count too) when the limit token parses, and when the limit token is missing
or unparseable the whole (newline-terminated) file is streamed. -/
theorem cat_three_lines_within_80 (l1 l2 l3 : List Nat) (rest : List (List Nat))
    (h1 : ∀ b ∈ l1, b ≠ 10) (h2 : ∀ b ∈ l2, b ≠ 10) (h3 : ∀ b ∈ l3, b ≠ 10)
    (hrest : rest.length = 7)
    (hlen : l1.length + l2.length + l3.length ≤ 80) :
    cat_flushes (linesToBytes ([l1, l2, l3] ++ rest)) (cat_limit "3") =
      [l1 ++ [10], l2 ++ [10], l3 ++ [10]] ∧
    (∀ bs : List Nat, bs.getLast? = some 10 →
      (cat_flushes bs (cat_limit "abc")).flatten = bs ∧
      (cat_flushes bs (cat_limit "")).flatten = bs) := by
  constructor
  · have hL : cat_limit "3" = 3 := by decide
    unfold cat_flushes
    rw [hL]
    have hfile : linesToBytes ([l1, l2, l3] ++ rest) =
        l1 ++ 10 :: (l2 ++ 10 :: (l3 ++ 10 :: linesToBytes rest)) := by
      simp [linesToBytes]
    rw [hfile]
    rw [catLoop_line 3 l1 h1 (l2 ++ 10 :: (l3 ++ 10 :: linesToBytes rest)) [] 0 0
      (by omega) (by decide)]
    rw [if_neg (by decide : ¬ ((0 + 1 : Nat) : Int) = 3)]
    rw [catLoop_line 3 l2 h2 (l3 ++ 10 :: linesToBytes rest) [] (0 + 1)
      (0 + l1.length) (by omega) (by decide)]
    rw [if_neg (by decide : ¬ ((0 + 1 + 1 : Nat) : Int) = 3)]
    rw [catLoop_line 3 l3 h3 (linesToBytes rest) [] (0 + 1 + 1)
      (0 + l1.length + l2.length) (by omega) (by decide)]
    rw [if_pos (by decide : ((0 + 1 + 1 + 1 : Nat) : Int) = 3)]
    simp
  · intro bs hlast
    have hA : cat_limit "abc" = -1 := by decide
    have hB : cat_limit "" = -1 := by decide
    unfold cat_flushes
    rw [hA, hB]
    have h := catLoop_flatten_neg (-1) (by decide) bs hlast [] 0 0
    simpa using h

theorem cat_three_lines_within_80_witness :
    cat_flushes
        (linesToBytes ([[97], [98], [99]] ++ List.replicate 7 [100]))
        (cat_limit "3") =
      [[97] ++ [10], [98] ++ [10], [99] ++ [10]] :=
  (cat_three_lines_within_80 [97] [98] [99] (List.replicate 7 [100])
    (by decide) (by decide) (by decide) (by simp) (by decide)).1

/-- C8: when the `set_temp` numeric argument is missing or does not parse as
a number (e.g. `set_temp bed abc`), the value written through the
data-exchange interface is exactly 0.0 and no error is raised for the bad
numeric input; the reply is the success message or the "is not a known
temperature device" message based solely on whether the target name is
known. -/
theorem set_temp_bad_number_writes_zero (known : Nat → Bool)
    (parameters : String)
    (hbad : (shift_parameter (shift_parameter parameters).2).1 = "" ∨
      strtodNum ((shift_parameter (shift_parameter parameters).2).1).data = none) :
    (set_temp_command known parameters).1 =
      (get_checksum (shift_parameter parameters).1, 0) ∧
    (set_temp_command known parameters).2 =
      (if known (get_checksum (shift_parameter parameters).1) then
        SetTempReply.success (shift_parameter parameters).1 0
       else SetTempReply.unknownDevice (shift_parameter parameters).1) := by
  have ht : set_temp_value parameters = 0 := by
    unfold set_temp_value
    rcases hbad with h | h
    · rw [if_pos h]
    · by_cases he : (shift_parameter (shift_parameter parameters).2).1 = ""
      · rw [if_pos he]
      · rw [if_neg he]
        unfold strtod
        rw [h]
        rfl
  have hmain : set_temp_command known parameters =
      ((get_checksum (shift_parameter parameters).1, 0),
       if known (get_checksum (shift_parameter parameters).1) then
         SetTempReply.success (shift_parameter parameters).1 0
       else SetTempReply.unknownDevice (shift_parameter parameters).1) := by
    unfold set_temp_command
    rw [ht]
    by_cases hk : known (get_checksum (shift_parameter parameters).1) = true
    · rw [if_pos hk, if_pos hk]
    · rw [if_neg hk, if_neg hk]
  rw [hmain]
  exact ⟨rfl, rfl⟩

theorem set_temp_bad_number_writes_zero_witness :
    (set_temp_command (fun cs => cs == get_checksum "bed") "bed abc").1 =
      (get_checksum (shift_parameter "bed abc").1, 0) ∧
    (set_temp_command (fun cs => cs == get_checksum "bed") "bed abc").2 =
      (if (fun cs => cs == get_checksum "bed")
          (get_checksum (shift_parameter "bed abc").1) then
        SetTempReply.success (shift_parameter "bed abc").1 0
       else SetTempReply.unknownDevice (shift_parameter "bed abc").1) :=
  set_temp_bad_number_writes_zero (fun cs => cs == get_checksum "bed")
    "bed abc" (Or.inr (by decide))

lemma sumRaw_cons (c : HeapChunk) (rest : List HeapChunk) :
    sumRaw (c :: rest) = c.rawSize + sumRaw rest := by
  simp [sumRaw]

lemma sumAdj_cons (c : HeapChunk) (rest : List HeapChunk) :
    sumAdj (c :: rest) = (c.rawSize - 8) + sumAdj rest := by
  simp [sumAdj]

lemma sumAdjUsed_cons (c : HeapChunk) (rest : List HeapChunk) :
    sumAdjUsed (c :: rest) =
      (if c.isFree then 0 else c.rawSize - 8) + sumAdjUsed rest := rfl

lemma sumAdjFree_cons (c : HeapChunk) (rest : List HeapChunk) :
    sumAdjFree (c :: rest) =
      (if c.isFree then c.rawSize - 8 else 0) + sumAdjFree rest := rfl

lemma expectedRecords_cons (start : Nat) (c : HeapChunk) (rest : List HeapChunk) :
    expectedRecords start (c :: rest) =
      ((start + 11) / 8 * 8, c.rawSize - 8, c.isFree) ::
        expectedRecords (start + c.rawSize) rest := rfl

lemma firstFreeAddr_cons (start : Nat) (c : HeapChunk) (rest : List HeapChunk) :
    firstFreeAddr start (c :: rest) =
      if c.isFree then start else firstFreeAddr (start + c.rawSize) rest := rfl

lemma memConsistent_cons (mem : Nat → Nat) (start : Nat) (c : HeapChunk)
    (rest : List HeapChunk) :
    memConsistent mem start (c :: rest) ↔
      (mem start = c.rawSize ∧
       (c.isFree = true →
         mem (start + 4) = firstFreeAddr (start + c.rawSize) rest) ∧
       memConsistent mem (start + c.rawSize) rest) := Iff.rfl

lemma firstFreeAddr_cases (chunks : List HeapChunk) :
    ∀ start : Nat, firstFreeAddr start chunks = 0 ∨
      (start ≤ firstFreeAddr start chunks ∧
        firstFreeAddr start chunks ≤ start + sumRaw chunks) := by
  induction chunks with
  | nil => intro start; exact Or.inl rfl
  | cons c rest ih =>
    intro start
    by_cases hf : c.isFree = true
    · right
      rw [firstFreeAddr_cons, if_pos hf]
      exact ⟨Nat.le_refl start, Nat.le_add_right _ _⟩
    · rw [firstFreeAddr_cons, if_neg hf]
      rcases ih (start + c.rawSize) with h | ⟨h1, h2⟩
      · exact Or.inl h
      · right
        rw [sumRaw_cons]
        omega

lemma sumAdj_partition (chunks : List HeapChunk) :
    sumAdjUsed chunks + sumAdjFree chunks = sumAdj chunks := by
  induction chunks with
  | nil => rfl
  | cons c rest ih =>
    rw [sumAdj_cons, sumAdjUsed_cons, sumAdjFree_cons]
    by_cases hf : c.isFree = true
    · rw [if_pos hf, if_pos hf]
      omega
    · rw [if_neg hf, if_neg hf]
      omega

lemma sumAdjUsed_le_sumRaw (chunks : List HeapChunk) :
    sumAdjUsed chunks ≤ sumRaw chunks := by
  induction chunks with
  | nil => exact Nat.le_refl 0
  | cons c rest ih =>
    rw [sumAdjUsed_cons, sumRaw_cons]
    by_cases hf : c.isFree = true
    · rw [if_pos hf]
      omega
    · rw [if_neg hf]
      omega

lemma sumAdj_le_sumRaw (chunks : List HeapChunk) :
    sumAdj chunks ≤ sumRaw chunks := by
  induction chunks with
  | nil => exact Nat.le_refl 0
  | cons c rest ih =>
    rw [sumAdj_cons, sumRaw_cons]
    omega

lemma heapWalk_loop_spec (mem : Nat → Nat) (heapEnd : Nat)
    (hEnd : heapEnd + 11 < 2 ^ 32) (chunks : List HeapChunk) :
    ∀ (start u f : Nat),
      (∀ c ∈ chunks, 8 ≤ c.rawSize) →
      memConsistent mem start chunks →
      start + sumRaw chunks = heapEnd →
      0 < start →
      u + f + sumAdj chunks < 2 ^ 32 →
      heapWalk_loop mem heapEnd chunks.length start
          (firstFreeAddr start chunks) u f =
        (expectedRecords start chunks, u + sumAdjUsed chunks,
         f + sumAdjFree chunks) := by
  induction chunks with
  | nil =>
    intro start u f h8 hcons hsum hpos hacc
    simp [heapWalk_loop, expectedRecords, sumAdjUsed, sumAdjFree]
  | cons c rest ih =>
    intro start u f h8 hcons hsum hpos hacc
    rw [memConsistent_cons] at hcons
    obtain ⟨hmm, hfp, hcr⟩ := hcons
    have hc8 : 8 ≤ c.rawSize := h8 c (List.mem_cons_self c rest)
    have h8r : ∀ x ∈ rest, 8 ≤ x.rawSize :=
      fun x hx => h8 x (List.mem_cons_of_mem c hx)
    rw [sumRaw_cons] at hsum
    rw [sumAdj_cons] at hacc
    have hlt : start < heapEnd := by omega
    have hraw : c.rawSize < 2 ^ 32 := by omega
    simp only [List.length_cons, heapWalk_loop]
    rw [if_pos hlt]
    rw [hmm, Nat.mod_eq_of_lt hraw]
    have hnext : (start + c.rawSize) % 2 ^ 32 = start + c.rawSize := by omega
    rw [hnext]
    have hdata : (start + 4 + 7) % 2 ^ 32 = start + 11 := by omega
    rw [hdata]
    have hadj : (c.rawSize + (2 ^ 32 - 8)) % 2 ^ 32 = c.rawSize - 8 := by omega
    rw [hadj]
    have hum : (u + (c.rawSize - 8)) % 2 ^ 32 = u + (c.rawSize - 8) := by omega
    have hfm : (f + (c.rawSize - 8)) % 2 ^ 32 = f + (c.rawSize - 8) := by omega
    rw [hum, hfm]
    have hfflt : firstFreeAddr (start + c.rawSize) rest < 2 ^ 32 := by
      rcases firstFreeAddr_cases rest (start + c.rawSize) with h | ⟨h1, h2⟩ <;> omega
    by_cases hf : c.isFree = true
    · have hffh : firstFreeAddr start (c :: rest) = start := by
        rw [firstFreeAddr_cons, if_pos hf]
      rw [hffh]
      have hb : (start == start) = true := beq_self_eq_true start
      rw [if_pos hb, if_pos hb, if_pos hb, hb]
      rw [hfp hf, Nat.mod_eq_of_lt hfflt]
      rw [ih (start + c.rawSize) u (f + (c.rawSize - 8)) h8r hcr (by omega)
        (by omega) (by omega)]
      rw [expectedRecords_cons, sumAdjUsed_cons, sumAdjFree_cons,
        if_pos hf, if_pos hf, hf]
      simp only [Prod.mk.injEq]
      refine ⟨trivial, ?_, ?_⟩ <;> omega
    · have hffh : firstFreeAddr start (c :: rest) =
          firstFreeAddr (start + c.rawSize) rest := by
        rw [firstFreeAddr_cons, if_neg hf]
      rw [hffh]
      have hne : start ≠ firstFreeAddr (start + c.rawSize) rest := by
        rcases firstFreeAddr_cases rest (start + c.rawSize) with h | ⟨h1, h2⟩ <;>
          omega
      have hb : (start == firstFreeAddr (start + c.rawSize) rest) = false :=
        beq_eq_false_iff_ne.mpr hne
      have hnb : ¬ (start == firstFreeAddr (start + c.rawSize) rest) = true := by
        rw [hb]
        exact Bool.false_ne_true
      rw [if_neg hnb, if_neg hnb, if_neg hnb, hb]
      rw [ih (start + c.rawSize) (u + (c.rawSize - 8)) f h8r hcr (by omega)
        (by omega) (by omega)]
      have hf' : c.isFree = false := by
        cases hbv : c.isFree
        · rfl
        · exact absurd hbv hf
      rw [expectedRecords_cons, sumAdjUsed_cons, sumAdjFree_cons,
        if_neg hf, if_neg hf, hf']
      simp only [Prod.mk.injEq]
      refine ⟨trivial, ?_, ?_⟩ <;> omega

/-- C1: for every heap configuration satisfying the allocator invariants —
free list sorted ascending by address and consistent with the chunk flags,
every raw size header at least the 8-byte overhead, chunks contiguous from
heap start to heap end — the walk classifies a chunk as free exactly when its
address equals the current free-list cursor (the reported records carry
exactly the configuration's free flags), accumulates raw size minus 8 into
the matching total, the final `usedSize + freeSize` equals the sum of all
adjusted chunk sizes, and the top-line summary `heapEnd - heapStart` printed
before the walk is at least the walk's used total. -/
theorem heapWalk_spec (mem : Nat → Nat) (chunks : List HeapChunk)
    (heapStart heapEnd : Nat)
    (h8 : ∀ c ∈ chunks, 8 ≤ c.rawSize)
    (hcons : memConsistent mem heapStart chunks)
    (hbound : heapStart + sumRaw chunks = heapEnd)
    (hpos : 0 < heapStart) (hEnd : heapEnd + 11 < 2 ^ 32) :
    heapWalk mem heapStart (firstFreeAddr heapStart chunks) heapEnd
        chunks.length =
      (heapEnd - heapStart, expectedRecords heapStart chunks,
       sumAdjUsed chunks, sumAdjFree chunks) ∧
    sumAdjUsed chunks + sumAdjFree chunks = sumAdj chunks ∧
    sumAdjUsed chunks ≤ heapEnd - heapStart := by
  have hsr := sumAdjUsed_le_sumRaw chunks
  have hsa := sumAdj_le_sumRaw chunks
  refine ⟨?_, sumAdj_partition chunks, by omega⟩
  unfold heapWalk
  have htop : (heapEnd + 2 ^ 32 - heapStart) % 2 ^ 32 = heapEnd - heapStart := by
    omega
  rw [htop, heapWalk_loop_spec mem heapEnd hEnd chunks heapStart 0 0 h8 hcons
    hbound hpos (by omega)]
  simp

theorem heapWalk_spec_witness :
    heapWalk wmem 8 (firstFreeAddr 8 wchunks) 64 wchunks.length =
      (64 - 8, expectedRecords 8 wchunks, sumAdjUsed wchunks,
       sumAdjFree wchunks) ∧
    sumAdjUsed wchunks + sumAdjFree wchunks = sumAdj wchunks ∧
    sumAdjUsed wchunks ≤ 64 - 8 :=
  heapWalk_spec wmem wchunks 8 64 (by decide)
    ⟨rfl, fun h => Bool.noConfusion h, rfl, fun _ => rfl, rfl,
     fun h => Bool.noConfusion h, trivial⟩
    (by decide) (by decide) (by decide)

end SmoothieShell
